import Mathlib

/-!
# Coffee-Shop repository: specification verification

A shallow embedding of the Coffee-Shop repository (an Ionic/Angular frontend
over a Flask drink-menu API secured by Auth0) together with proofs of the
specification claims.

The visible source files are `src/frontend/src/environments/environment.prod.ts`
(the production environment configuration, embedded literally below) and
`src/README.md` (the feature list).  The backend route handlers, drink model
and token verification are part of the repository but not present under `src/`;
those parts are modelled from the specification, as marked on each definition.
-/

/-- A TypeScript/JSON runtime value: booleans, strings, numbers, opaque
function values, arrays and objects (ordered key/value field lists).  The
`func` constructor represents a function-valued field, so that the claim that a
configuration object is pure data (no functions anywhere) is a real property
and not a tautology of the embedding. -/
inductive TSValue where
  | bool (b : Bool)
  | str (s : String)
  | num (n : Int)
  | func (name : String)
  | arr (elems : List TSValue)
  | obj (fields : List (String × TSValue))
deriving Repr

/-- Field lookup in an object's field list (first match wins, as in a
TypeScript object literal, whose keys are unique anyway). -/
def getField (fields : List (String × TSValue)) (k : String) : Option TSValue :=
  match fields with
  | [] => none
  | (k₁, v) :: rest => if k₁ = k then some v else getField rest k

/-- Property access `v[k]` on a TypeScript value: defined on objects, absent
otherwise. -/
def lookup (v : TSValue) (k : String) : Option TSValue :=
  match v with
  | .obj fields => getField fields k
  | _ => none

/-- The top-level keys of an object value (empty for non-objects). -/
def topKeys (v : TSValue) : List String :=
  match v with
  | .obj fields => fields.map Prod.fst
  | _ => []

/-- All object keys occurring anywhere in the value, top-level and nested. -/
def allKeys : TSValue → List String
  | .arr [] => []
  | .arr (e :: es) => allKeys e ++ allKeys (.arr es)
  | .obj [] => []
  | .obj ((k, v) :: fs) => k :: (allKeys v ++ allKeys (.obj fs))
  | .bool _ => []
  | .str _ => []
  | .num _ => []
  | .func _ => []

/-- Every leaf of the value is a boolean or string literal: no numbers, and in
particular no function values and hence no computation on read. -/
def leavesBoolOrStr : TSValue → Bool
  | .bool _ => true
  | .str _ => true
  | .num _ => false
  | .func _ => false
  | .arr [] => true
  | .arr (e :: es) => leavesBoolOrStr e && leavesBoolOrStr (.arr es)
  | .obj [] => true
  | .obj ((_, v) :: fs) => leavesBoolOrStr v && leavesBoolOrStr (.obj fs)

/-- `hasUrlScheme s p` holds when the string `s` begins with the characters of
`p`; used to state which URL scheme a configured URL uses. -/
def hasUrlScheme (s p : String) : Bool :=
  p.data.isPrefixOf s.data

/-- The exported production environment object, transcribed literally from
`src/frontend/src/environments/environment.prod.ts`. -/
def environment : TSValue :=
  .obj [("production", .bool true),
        ("apiServerUrl", .str "http://127.0.0.1:5000"),
        ("auth0", .obj
          [("url", .str "dev-p0xs7y2g.us"),
           ("audience", .str "coffee-shop"),
           ("clientId", .str "CuPVu5idAnSX2qZLbR1P5XnXooMmHgun"),
           ("callbackURL", .str "http://localhost:8100")])]

/-- C3: the exported production environment configuration is a structure whose
top-level fields are exactly a production mode flag, the API server base URL,
and an authentication block containing exactly an identity-provider domain, an
audience identifier, a client identifier, and a callback URL. -/
theorem environment_shape :
    topKeys environment = ["production", "apiServerUrl", "auth0"]
    ∧ lookup environment "production" = some (.bool true)
    ∧ (∃ s, lookup environment "apiServerUrl" = some (.str s))
    ∧ ∃ a, lookup environment "auth0" = some a
        ∧ topKeys a = ["url", "audience", "clientId", "callbackURL"]
        ∧ (∃ s, lookup a "url" = some (.str s))
        ∧ (∃ s, lookup a "audience" = some (.str s))
        ∧ (∃ s, lookup a "clientId" = some (.str s))
        ∧ (∃ s, lookup a "callbackURL" = some (.str s)) := by
  refine ⟨rfl, rfl, ⟨_, rfl⟩, _, rfl, rfl, ⟨_, rfl⟩, ⟨_, rfl⟩, ⟨_, rfl⟩, ⟨_, rfl⟩⟩

/-- C5: the production environment configuration is pure data: every leaf of
the exported value is a boolean or string literal, so there are no function
values and no computation anywhere in it, and every read of a field of this
constant returns the same value. -/
theorem environment_pure_data : leavesBoolOrStr environment = true := by
  simp [environment, leavesBoolOrStr]

/-- C9: in the production configuration the production flag is true while both
configured URLs are loopback addresses over unencrypted HTTP — the API server
URL is the literal `http://127.0.0.1:5000` and the Auth0 callback URL is the
literal `http://localhost:8100` — and the two URLs are distinct. -/
theorem environment_loopback_urls :
    lookup environment "production" = some (.bool true)
    ∧ lookup environment "apiServerUrl" = some (.str "http://127.0.0.1:5000")
    ∧ (∃ a, lookup environment "auth0" = some a
        ∧ lookup a "callbackURL" = some (.str "http://localhost:8100"))
    ∧ "http://127.0.0.1:5000" ≠ "http://localhost:8100"
    ∧ hasUrlScheme "http://127.0.0.1:5000" "http://127.0.0.1" = true
    ∧ hasUrlScheme "http://localhost:8100" "http://localhost" = true
    ∧ hasUrlScheme "http://127.0.0.1:5000" "https" = false
    ∧ hasUrlScheme "http://localhost:8100" "https" = false := by
  refine ⟨rfl, rfl, ⟨_, rfl, rfl⟩, by decide, by decide, by decide, by decide, by decide⟩

/-- C10: every field access a consumer performs on the environment value is
total and yields a non-empty value: the production flag is a defined boolean,
and the API server URL together with all four authentication-block fields are
defined, non-empty string literals. -/
theorem environment_fields_total_nonempty :
    (∃ b, lookup environment "production" = some (.bool b))
    ∧ (∃ s, lookup environment "apiServerUrl" = some (.str s) ∧ s ≠ "")
    ∧ ∃ a, lookup environment "auth0" = some a
        ∧ (∃ s, lookup a "url" = some (.str s) ∧ s ≠ "")
        ∧ (∃ s, lookup a "audience" = some (.str s) ∧ s ≠ "")
        ∧ (∃ s, lookup a "clientId" = some (.str s) ∧ s ≠ "")
        ∧ (∃ s, lookup a "callbackURL" = some (.str s) ∧ s ≠ "") := by
  refine ⟨⟨_, rfl⟩, ⟨_, rfl, by decide⟩, _, rfl,
    ⟨_, rfl, by decide⟩, ⟨_, rfl, by decide⟩, ⟨_, rfl, by decide⟩, ⟨_, rfl, by decide⟩⟩

/-- Modelled from the spec: an entry of a drink's recipe.  The backend drink
model is part of the repository but not under `src/`; the specification
describes a recipe as "a sequence of ingredient entries, each with a
color/label and a proportion value". -/
structure Ingredient where
  name : String
  color : String
  parts : Nat
deriving DecidableEq

/-- Modelled from the spec: a Drink record of the relational store, with a
system-assigned unique identifier, a title unique per shop catalog, and a
recipe. -/
structure Drink where
  id : Nat
  title : String
  recipe : List Ingredient
deriving DecidableEq

/-- Modelled from the spec: the "short" projection of a Drink, visible to all
callers — "title + color ratios only"; each recipe entry shows only its color
representation, never the ingredient name or the exact proportion value. -/
def shortForm (d : Drink) : TSValue :=
  .obj [("title", .str d.title),
        ("recipe", .arr (d.recipe.map (fun i => .obj [("color", .str i.color)])))]

/-- Modelled from the spec: the "long" projection of a Drink — full recipe
detail, visible only to callers holding the recipe-viewing permission. -/
def longForm (d : Drink) : TSValue :=
  .obj [("id", .num (d.id : Int)),
        ("title", .str d.title),
        ("recipe", .arr (d.recipe.map
          (fun i => .obj [("name", .str i.name),
                          ("color", .str i.color),
                          ("parts", .num (i.parts : Int))])))]

lemma allKeys_short_arr (l : List Ingredient) :
    allKeys (.arr (l.map (fun i => .obj [("color", .str i.color)])))
      = l.flatMap (fun _ => ["color"]) := by
  induction l with
  | nil => simp [allKeys]
  | cons i rest ih => simp [allKeys, ih]

lemma allKeys_long_arr (l : List Ingredient) :
    allKeys (.arr (l.map
        (fun i => .obj [("name", .str i.name),
                        ("color", .str i.color),
                        ("parts", .num (i.parts : Int))])))
      = l.flatMap (fun _ => ["name", "color", "parts"]) := by
  induction l with
  | nil => simp [allKeys]
  | cons i rest ih => simp [allKeys, ih]

lemma allKeys_shortForm (d : Drink) :
    allKeys (shortForm d) = "title" :: "recipe" :: d.recipe.flatMap (fun _ => ["color"]) := by
  simp [shortForm, allKeys, allKeys_short_arr]

lemma allKeys_longForm (d : Drink) :
    allKeys (longForm d)
      = "id" :: "title" :: "recipe" :: d.recipe.flatMap (fun _ => ["name", "color", "parts"]) := by
  simp [longForm, allKeys, allKeys_long_arr]

/-- C2: for every Drink, the long-form projection's field set strictly
contains the short-form projection's field set (`id` appears only in the long
form), and the short-form projection exposes no `name` field and no `parts`
field anywhere — no ingredient names and no exact proportion values beyond the
color representation. -/
theorem long_strict_superset_short (d : Drink) :
    allKeys (shortForm d) ⊆ allKeys (longForm d)
    ∧ "id" ∈ allKeys (longForm d)
    ∧ "id" ∉ allKeys (shortForm d)
    ∧ "name" ∉ allKeys (shortForm d)
    ∧ "parts" ∉ allKeys (shortForm d) := by
  rw [allKeys_shortForm, allKeys_longForm]
  refine ⟨?_, by simp, by simp, by simp, by simp⟩
  intro k hk
  simp only [List.mem_cons, List.mem_flatMap] at hk ⊢
  rcases hk with h | h | ⟨i, hi, hk⟩
  · exact Or.inr (Or.inl h)
  · exact Or.inr (Or.inr (Or.inl h))
  · simp at hk
    exact Or.inr (Or.inr (Or.inr ⟨i, hi, by simp [hk]⟩))

/-- Modelled from the spec: an access token as the API Service sees it after
signature/expiry verification by the external identity provider's keys — an
opaque raw credential string, the outcome of validity checking, and the set of
granted permission strings.  The backend `auth` module is part of the
repository but not under `src/`. -/
structure AccessToken where
  raw : String
  valid : Bool
  permissions : List String
deriving DecidableEq

/-- Modelled from the spec: the recipe-viewing permission held by baristas. -/
def baristaPermission : String := "barista"

/-- Modelled from the spec: the permission held by managers, required for
creating and editing drinks. -/
def managerPermission : String := "manager"

/-- Modelled from the spec: the four operations of the API surface — list
drinks, list drink details, create a drink, edit a drink.  There is no delete
operation, and the create operation carries no identifier: identifiers are
system-assigned. -/
inductive Op where
  | getDrinks
  | getDrinksDetail
  | postDrinks (title : String) (recipe : List Ingredient)
  | patchDrinks (id : Nat) (newTitle : Option String) (newRecipe : Option (List Ingredient))
deriving DecidableEq

/-- Modelled from the spec: the permission each operation requires — none for
the public short drink list, the barista permission for full recipe detail,
the manager permission for create and for edit. -/
def requiredPermission : Op → Option String
  | .getDrinks => none
  | .getDrinksDetail => some baristaPermission
  | .postDrinks _ _ => some managerPermission
  | .patchDrinks _ _ _ => some managerPermission

/-- Modelled from the spec: a credential carries a permission when it is
present, valid, and its granted permission set contains that permission. -/
def hasPermission (tok : Option AccessToken) (p : String) : Bool :=
  match tok with
  | none => false
  | some t => t.valid && t.permissions.contains p

/-- Modelled from the spec: the per-request authorization check the API
Service performs before executing an operation. -/
def authorized (tok : Option AccessToken) (op : Op) : Bool :=
  match requiredPermission op with
  | none => true
  | some p => hasPermission tok p

/-- Modelled from the spec: the response of an API operation. -/
inductive Response where
  | ok (body : TSValue)
  | authFailure
  | notFound
  | unprocessable
deriving Repr

/-- Modelled from the spec: the outcome of handling one request — the
response, the persistence layer's drink records afterwards, and whether the
persistence layer was read or written while handling the request. -/
structure HandleResult where
  response : Response
  db : List Drink
  dbAccessed : Bool

/-- Modelled from the spec: the system-assigned identifier for a newly created
drink — one more than the largest identifier in the store, hence fresh. -/
def newId (db : List Drink) : Nat :=
  db.foldr (fun d m => max d.id m) 0 + 1

/-- Modelled from the spec: execution of an already-authorized operation
against the persistence layer: a single read for the list operations, a single
guarded write for create and edit; title uniqueness is enforced by rejecting a
create or edit whose title duplicates another record's. -/
def execOp (op : Op) (db : List Drink) : HandleResult :=
  match op with
  | .getDrinks => ⟨.ok (.arr (db.map shortForm)), db, true⟩
  | .getDrinksDetail => ⟨.ok (.arr (db.map longForm)), db, true⟩
  | .postDrinks title recipe =>
      if title ∈ db.map Drink.title then
        ⟨.unprocessable, db, true⟩
      else
        ⟨.ok (longForm ⟨newId db, title, recipe⟩), db ++ [⟨newId db, title, recipe⟩], true⟩
  | .patchDrinks i (some t) nr =>
      if i ∈ db.map Drink.id then
        if ∃ d ∈ db, d.id ≠ i ∧ d.title = t then
          ⟨.unprocessable, db, true⟩
        else
          let db' := db.map (fun d =>
            if d.id = i then { d with title := t, recipe := nr.getD d.recipe } else d)
          ⟨.ok (.arr (db'.map longForm)), db', true⟩
      else
        ⟨.notFound, db, true⟩
  | .patchDrinks i none nr =>
      if i ∈ db.map Drink.id then
        let db' := db.map (fun d =>
          if d.id = i then { d with recipe := nr.getD d.recipe } else d)
        ⟨.ok (.arr (db'.map longForm)), db', true⟩
      else
        ⟨.notFound, db, true⟩

/-- Modelled from the spec: handling of one API request — the authorization
check runs first, and a request that fails it is rejected without the
persistence layer being read or written. -/
def handle (tok : Option AccessToken) (op : Op) (db : List Drink) : HandleResult :=
  if authorized tok op then execOp op db
  else ⟨.authFailure, db, false⟩

/-- C1: a request to a restricted operation whose credential is missing,
invalid, or lacking the required permission is rejected with an authorization
failure before any read or write of the persistence layer: the drink records
are returned unchanged and the store was not accessed. -/
theorem auth_rejected_before_persistence (tok : Option AccessToken) (op : Op) (p : String)
    (db : List Drink) (hres : requiredPermission op = some p)
    (hperm : hasPermission tok p = false) :
    (handle tok op db).response = .authFailure
    ∧ (handle tok op db).db = db
    ∧ (handle tok op db).dbAccessed = false := by
  have hauth : authorized tok op = false := by
    unfold authorized
    rw [hres]
    exact hperm
  unfold handle
  rw [hauth]
  exact ⟨rfl, rfl, rfl⟩

/-- Witness for C1: a detail request with no credential is rejected and leaves
a one-drink store untouched and unread. -/
theorem auth_rejected_before_persistence_witness :
    requiredPermission .getDrinksDetail = some baristaPermission
    ∧ hasPermission none baristaPermission = false
    ∧ (handle none .getDrinksDetail [⟨1, "latte", []⟩]).response = .authFailure
    ∧ (handle none .getDrinksDetail [⟨1, "latte", []⟩]).db = [⟨1, "latte", []⟩]
    ∧ (handle none .getDrinksDetail [⟨1, "latte", []⟩]).dbAccessed = false := by
  refine ⟨rfl, rfl, ?_⟩
  exact auth_rejected_before_persistence none .getDrinksDetail baristaPermission
    [⟨1, "latte", []⟩] rfl rfl

/-- C4: the API surface consists of exactly the four drink operations, and the
permission required is none for the public short list, the barista
(recipe-viewing) permission for full detail, and the manager permission for
both create and edit. -/
theorem api_surface_and_permissions :
    (∀ op : Op, op = .getDrinks ∨ op = .getDrinksDetail
      ∨ (∃ t r, op = .postDrinks t r)
      ∨ (∃ i nt nr, op = .patchDrinks i nt nr))
    ∧ requiredPermission .getDrinks = none
    ∧ requiredPermission .getDrinksDetail = some baristaPermission
    ∧ (∀ t r, requiredPermission (.postDrinks t r) = some managerPermission)
    ∧ (∀ i nt nr, requiredPermission (.patchDrinks i nt nr) = some managerPermission) := by
  refine ⟨?_, rfl, rfl, fun t r => rfl, fun i nt nr => rfl⟩
  intro op
  cases op with
  | getDrinks => exact Or.inl rfl
  | getDrinksDetail => exact Or.inr (Or.inl rfl)
  | postDrinks t r => exact Or.inr (Or.inr (Or.inl ⟨t, r, rfl⟩))
  | patchDrinks i nt nr => exact Or.inr (Or.inr (Or.inr ⟨i, nt, nr, rfl⟩))

lemma map_id_of_update (db : List Drink) (g : Drink → Drink)
    (h : ∀ d, (g d).id = d.id) :
    (db.map g).map Drink.id = db.map Drink.id := by
  induction db with
  | nil => rfl
  | cons d rest ih => simp [h, ih]

/-- C7: no operation of the system ever deletes a Drink: the four operations
are the entire surface (there is no delete operation in `Op`), and under any
single request the set of stored drink identifiers never shrinks and the
number of stored records never decreases. -/
theorem no_drink_deletion (tok : Option AccessToken) (op : Op) (db : List Drink) :
    db.map Drink.id ⊆ (handle tok op db).db.map Drink.id
    ∧ db.length ≤ (handle tok op db).db.length := by
  by_cases hauth : authorized tok op
  · cases op with
    | getDrinks =>
        simp only [handle, if_pos hauth, execOp]
        exact ⟨fun x hx => hx, le_refl _⟩
    | getDrinksDetail =>
        simp only [handle, if_pos hauth, execOp]
        exact ⟨fun x hx => hx, le_refl _⟩
    | postDrinks t r =>
        simp only [handle, if_pos hauth, execOp]
        by_cases hdup : t ∈ db.map Drink.title
        · rw [if_pos hdup]
          exact ⟨fun x hx => hx, le_refl _⟩
        · rw [if_neg hdup]
          constructor
          · intro x hx
            simp only [List.map_append]
            exact List.mem_append_left _ hx
          · simp
    | patchDrinks i nt nr =>
        cases nt with
        | some t =>
            simp only [handle, if_pos hauth, execOp]
            by_cases hmem : i ∈ db.map Drink.id
            · rw [if_pos hmem]
              by_cases hcol : ∃ d ∈ db, d.id ≠ i ∧ d.title = t
              · rw [if_pos hcol]
                exact ⟨fun x hx => hx, le_refl _⟩
              · rw [if_neg hcol]
                simp only
                rw [map_id_of_update _ _ (fun d => by by_cases h : d.id = i <;> simp [h])]
                exact ⟨fun x hx => hx, by simp⟩
            · rw [if_neg hmem]
              exact ⟨fun x hx => hx, le_refl _⟩
        | none =>
            simp only [handle, if_pos hauth, execOp]
            by_cases hmem : i ∈ db.map Drink.id
            · rw [if_pos hmem]
              simp only
              rw [map_id_of_update _ _ (fun d => by by_cases h : d.id = i <;> simp [h])]
              exact ⟨fun x hx => hx, by simp⟩
            · rw [if_neg hmem]
              exact ⟨fun x hx => hx, le_refl _⟩
  · simp only [handle, if_neg hauth]
    exact ⟨fun x hx => hx, le_refl _⟩

/-- The catalog invariant of the relational store: drink identifiers are
pairwise distinct, and drink titles are pairwise distinct. -/
def catalogInv (db : List Drink) : Prop :=
  (db.map Drink.id).Nodup ∧ (db.map Drink.title).Nodup

/-- The reachable states of the persistence layer: the empty store, and any
state obtained from a reachable state by handling one API request. -/
inductive Reachable : List Drink → Prop where
  | init : Reachable []
  | step (tok : Option AccessToken) (op : Op) (db : List Drink) :
      Reachable db → Reachable (handle tok op db).db

lemma id_le_fold_max (db : List Drink) (d : Drink) (hd : d ∈ db) :
    d.id ≤ db.foldr (fun d m => max d.id m) 0 := by
  induction db with
  | nil => cases hd
  | cons e rest ih =>
      rcases List.mem_cons.mp hd with h | h
      · subst h
        exact le_max_left _ _
      · exact le_trans (ih h) (le_max_right _ _)

lemma newId_not_mem (db : List Drink) : newId db ∉ db.map Drink.id := by
  intro hmem
  rcases List.mem_map.mp hmem with ⟨d, hd, hid⟩
  have := id_le_fold_max db d hd
  rw [hid] at this
  exact absurd this (by simp [newId])

lemma map_title_of_update (db : List Drink) (g : Drink → Drink)
    (h : ∀ d, (g d).title = d.title) :
    (db.map g).map Drink.title = db.map Drink.title := by
  induction db with
  | nil => rfl
  | cons d rest ih => simp [h, ih]

lemma nodup_title_update (db : List Drink) (i : Nat) (t : String)
    (g : Drink → Drink)
    (hgt : ∀ d, d.id = i → (g d).title = t)
    (hgn : ∀ d, d.id ≠ i → (g d).title = d.title)
    (hids : (db.map Drink.id).Nodup)
    (htit : (db.map Drink.title).Nodup)
    (hcol : ∀ d ∈ db, d.id ≠ i → d.title ≠ t) :
    ((db.map g).map Drink.title).Nodup := by
  rw [List.map_map]
  have hidp : db.Pairwise (fun a b => a.id ≠ b.id) := List.pairwise_map.mp hids
  have htitp : db.Pairwise (fun a b => a.title ≠ b.title) := List.pairwise_map.mp htit
  have hboth := hidp.and htitp
  have : db.Pairwise (fun a b => (Drink.title ∘ g) a ≠ (Drink.title ∘ g) b) := by
    refine hboth.imp_of_mem ?_
    intro a b ha hb hab
    by_cases hia : a.id = i
    · by_cases hib : b.id = i
      · exact absurd (hia.trans hib.symm) hab.1
      · simp only [Function.comp]
        rw [hgt a hia, hgn b hib]
        exact fun h => hcol b hb hib h.symm
    · by_cases hib : b.id = i
      · simp only [Function.comp]
        rw [hgn a hia, hgt b hib]
        exact hcol a ha hia
      · simp only [Function.comp]
        rw [hgn a hia, hgn b hib]
        exact hab.2
  exact List.pairwise_map.mpr this

lemma catalogInv_step (tok : Option AccessToken) (op : Op) (db : List Drink)
    (h : catalogInv db) : catalogInv (handle tok op db).db := by
  obtain ⟨hids, htit⟩ := h
  by_cases hauth : authorized tok op
  · cases op with
    | getDrinks =>
        simp only [handle, if_pos hauth, execOp]
        exact ⟨hids, htit⟩
    | getDrinksDetail =>
        simp only [handle, if_pos hauth, execOp]
        exact ⟨hids, htit⟩
    | postDrinks t r =>
        simp only [handle, if_pos hauth, execOp]
        by_cases hdup : t ∈ db.map Drink.title
        · rw [if_pos hdup]
          exact ⟨hids, htit⟩
        · rw [if_neg hdup]
          constructor
          · simp only [List.map_append, List.map_cons, List.map_nil]
            rw [List.nodup_append]
            refine ⟨hids, List.nodup_singleton _, ?_⟩
            intro x hx hx1
            rcases List.mem_singleton.mp hx1 with rfl
            exact newId_not_mem db hx
          · simp only [List.map_append, List.map_cons, List.map_nil]
            rw [List.nodup_append]
            refine ⟨htit, List.nodup_singleton _, ?_⟩
            intro x hx hx1
            rcases List.mem_singleton.mp hx1 with rfl
            exact hdup hx
    | patchDrinks i nt nr =>
        cases nt with
        | some t =>
            simp only [handle, if_pos hauth, execOp]
            by_cases hmem : i ∈ db.map Drink.id
            · rw [if_pos hmem]
              by_cases hcol : ∃ d ∈ db, d.id ≠ i ∧ d.title = t
              · rw [if_pos hcol]
                exact ⟨hids, htit⟩
              · rw [if_neg hcol]
                push_neg at hcol
                simp only
                constructor
                · rw [map_id_of_update _ _ (fun d => by by_cases h : d.id = i <;> simp [h])]
                  exact hids
                · exact nodup_title_update db i t _
                    (fun d hd => by simp [hd])
                    (fun d hd => by simp [hd])
                    hids htit hcol
            · rw [if_neg hmem]
              exact ⟨hids, htit⟩
        | none =>
            simp only [handle, if_pos hauth, execOp]
            by_cases hmem : i ∈ db.map Drink.id
            · rw [if_pos hmem]
              simp only
              constructor
              · rw [map_id_of_update _ _ (fun d => by by_cases h : d.id = i <;> simp [h])]
                exact hids
              · rw [map_title_of_update _ _ (fun d => by by_cases h : d.id = i <;> simp [h])]
                exact htit
            · rw [if_neg hmem]
              exact ⟨hids, htit⟩
  · simp only [handle, if_neg hauth]
    exact ⟨hids, htit⟩

/-- C6: in every reachable catalog state the drink identifiers are pairwise
distinct and the drink titles are pairwise distinct; since reachable states
are exactly those produced from the empty store by create and edit requests
(the create operation carries no identifier — the store assigns `newId`, which
is fresh), both uniqueness properties are preserved by every operation. -/
theorem reachable_catalog_unique (db : List Drink) (h : Reachable db) :
    catalogInv db := by
  induction h with
  | init => exact ⟨List.nodup_nil, List.nodup_nil⟩
  | step tok op db hr ih => exact catalogInv_step tok op db ih

/-- Witness for C6: the state reached by creating one drink from the empty
store is reachable and satisfies the catalog invariant. -/
theorem reachable_catalog_unique_witness :
    Reachable (handle (some ⟨"tk", true, [managerPermission]⟩)
        (.postDrinks "latte" []) []).db
    ∧ catalogInv (handle (some ⟨"tk", true, [managerPermission]⟩)
        (.postDrinks "latte" []) []).db := by
  have hr : Reachable (handle (some ⟨"tk", true, [managerPermission]⟩)
      (.postDrinks "latte" []) []).db :=
    Reachable.step _ _ _ Reachable.init
  exact ⟨hr, reachable_catalog_unique _ hr⟩

/-- The strings carried by one recipe entry. -/
def ingredientStrings (i : Ingredient) : List String := [i.name, i.color]

/-- The strings stored in one drink record. -/
def drinkStrings (d : Drink) : List String :=
  d.title :: d.recipe.flatMap ingredientStrings

/-- All strings stored in the persistence layer. -/
def dbStrings (db : List Drink) : List String := db.flatMap drinkStrings

/-- The strings carried by a request's payload. -/
def opStrings : Op → List String
  | .getDrinks => []
  | .getDrinksDetail => []
  | .postDrinks t r => t :: r.flatMap ingredientStrings
  | .patchDrinks _ nt nr => nt.toList ++ (nr.getD []).flatMap ingredientStrings

lemma dbStrings_handle_subset (tok : Option AccessToken) (op : Op) (db : List Drink)
    (x : String) (hx : x ∈ dbStrings (handle tok op db).db) :
    x ∈ dbStrings db ∨ x ∈ opStrings op := by
  by_cases hauth : authorized tok op
  · cases op with
    | getDrinks =>
        simp only [handle, if_pos hauth, execOp] at hx
        exact Or.inl hx
    | getDrinksDetail =>
        simp only [handle, if_pos hauth, execOp] at hx
        exact Or.inl hx
    | postDrinks t r =>
        simp only [handle, if_pos hauth, execOp] at hx
        by_cases hdup : t ∈ db.map Drink.title
        · rw [if_pos hdup] at hx
          exact Or.inl hx
        · rw [if_neg hdup] at hx
          simp only [dbStrings, List.flatMap_append] at hx
          rcases List.mem_append.mp hx with h | h
          · exact Or.inl h
          · simp only [List.flatMap_cons, List.flatMap_nil, List.append_nil] at h
            exact Or.inr h
    | patchDrinks i nt nr =>
        cases nt with
        | some t =>
            simp only [handle, if_pos hauth, execOp] at hx
            by_cases hmem : i ∈ db.map Drink.id
            · rw [if_pos hmem] at hx
              by_cases hcol : ∃ d ∈ db, d.id ≠ i ∧ d.title = t
              · rw [if_pos hcol] at hx
                exact Or.inl hx
              · rw [if_neg hcol] at hx
                simp only [dbStrings, List.mem_flatMap, List.mem_map] at hx
                obtain ⟨d, ⟨d₀, hd₀, rfl⟩, hxd⟩ := hx
                by_cases hid : d₀.id = i
                · simp only [drinkStrings, if_pos hid, List.mem_cons] at hxd
                  rcases hxd with rfl | hxd
                  · exact Or.inr (by simp [opStrings])
                  · cases nr with
                    | some r =>
                        simp only [Option.getD] at hxd
                        exact Or.inr (by
                          simp only [opStrings, Option.toList, List.mem_append,
                            List.mem_cons, Option.getD]
                          right
                          exact hxd)
                    | none =>
                        simp only [Option.getD] at hxd
                        refine Or.inl ?_
                        simp only [dbStrings, List.mem_flatMap]
                        exact ⟨d₀, hd₀, by
                          simp only [drinkStrings, List.mem_cons]
                          exact Or.inr hxd⟩
                · simp only [if_neg hid] at hxd
                  refine Or.inl ?_
                  simp only [dbStrings, List.mem_flatMap]
                  exact ⟨d₀, hd₀, hxd⟩
            · rw [if_neg hmem] at hx
              exact Or.inl hx
        | none =>
            simp only [handle, if_pos hauth, execOp] at hx
            by_cases hmem : i ∈ db.map Drink.id
            · rw [if_pos hmem] at hx
              simp only [dbStrings, List.mem_flatMap, List.mem_map] at hx
              obtain ⟨d, ⟨d₀, hd₀, rfl⟩, hxd⟩ := hx
              by_cases hid : d₀.id = i
              · simp only [drinkStrings, if_pos hid, List.mem_cons] at hxd
                rcases hxd with rfl | hxd
                · exact Or.inl (by
                    simp only [dbStrings, List.mem_flatMap]
                    exact ⟨d₀, hd₀, by simp [drinkStrings]⟩)
                · cases nr with
                  | some r =>
                      simp only [Option.getD] at hxd
                      exact Or.inr (by
                        simp only [opStrings, Option.toList, List.mem_append, Option.getD]
                        right
                        exact hxd)
                  | none =>
                      simp only [Option.getD] at hxd
                      refine Or.inl ?_
                      simp only [dbStrings, List.mem_flatMap]
                      exact ⟨d₀, hd₀, by
                        simp only [drinkStrings, List.mem_cons]
                        exact Or.inr hxd⟩
              · simp only [if_neg hid] at hxd
                refine Or.inl ?_
                simp only [dbStrings, List.mem_flatMap]
                exact ⟨d₀, hd₀, hxd⟩
            · rw [if_neg hmem] at hx
              exact Or.inl hx
  · simp only [handle, if_neg hauth] at hx
    exact Or.inl hx

/-- C8: the API Service never writes an access token to persistent storage:
handling any request with a credential whose raw token string is not already
among the stored strings and not part of the request payload leaves the
persistence layer free of that token string — the token is only validated. -/
theorem token_never_persisted (tok : AccessToken) (op : Op) (db : List Drink)
    (h₁ : tok.raw ∉ dbStrings db) (h₂ : tok.raw ∉ opStrings op) :
    tok.raw ∉ dbStrings (handle (some tok) op db).db := by
  intro hx
  rcases dbStrings_handle_subset (some tok) op db tok.raw hx with h | h
  · exact h₁ h
  · exact h₂ h

/-- Witness for C8: a manager's create request carrying the token
`secret-jwt` leaves the store free of that token string. -/
theorem token_never_persisted_witness :
    ("secret-jwt" ∉ dbStrings ([] : List Drink))
    ∧ ("secret-jwt" ∉ opStrings (.postDrinks "latte" []))
    ∧ "secret-jwt" ∉ dbStrings
        (handle (some ⟨"secret-jwt", true, [managerPermission]⟩)
          (.postDrinks "latte" []) []).db := by
  refine ⟨by simp [dbStrings], by simp [opStrings], ?_⟩
  exact token_never_persisted ⟨"secret-jwt", true, [managerPermission]⟩
    (.postDrinks "latte" []) [] (by simp [dbStrings]) (by simp [opStrings])
